import Mathlib

/-!
Verification of the sportaki schedule converter core
(`sportaki_schedule_converter.py`).

The development shallowly embeds the text-processing pipeline of the
program: brace-block extraction (regex BLOCK_RE), the key/value pair
scanner (regex PAIR_RE, including its backtracking alternative order),
quote stripping, PHP escaping, the duration coercion through Python
`int(float(s))`, the competition fallback, pending-entry detection,
the stable sort by (date, start), and the blank-line grouping of the
rendered output.

Modelling conventions:
* Python strings are Lean `String`/`List Char`; whitespace predicates
  use the ASCII fragment of Python whitespace.
* Python dicts are association lists with in-place update on existing
  keys (`dictSet`), which matches dict assignment semantics for the
  operations the program uses (membership, `get`, assignment).
* Python `float(s)` is modelled by `pyFloatParse`, which implements the
  accepted grammar (optional sign, digit groups with underscores,
  optional fraction and exponent, the inf/infinity/nan keywords,
  surrounding whitespace) with exact rational values represented as a
  mantissa/decimal-scale pair; overflow beyond the largest double is
  mapped to infinity.  `int(...)` on the result is modelled by
  `pyTrunc`, which performs the decimal-to-nearest-double rounding
  (round half to even) exactly in integer arithmetic before truncating
  toward zero, and fails on non-finite values, as in Python.
* Python `list.sort(key=...)` is modelled by a stable insertion sort
  (`insSort`), which agrees extensionally with any stable ascending
  sort.
-/

namespace Sportaki

/-- Single-quote character, written numerically. -/
def squote : Char := Char.ofNat 39

/-- Double-quote character. -/
def dquote : Char := Char.ofNat 34

/-- Opening brace character. -/
def lbrace : Char := Char.ofNat 123

/-- Closing brace character. -/
def rbrace : Char := Char.ofNat 125

/-- Backslash character. -/
def bslash : Char := Char.ofNat 92

/-- ASCII whitespace, as matched by the regex class backslash-s and by
Python `str.strip()` (ASCII fragment). -/
def pyIsWs (c : Char) : Bool :=
  c = ' ' || c = '\t' || c = '\n' || c = '\r' || c = '\x0b' || c = '\x0c'

/-- Python `str.strip()` on a character list (ASCII whitespace). -/
def pyStrip (cs : List Char) : List Char :=
  ((cs.dropWhile pyIsWs).reverse.dropWhile pyIsWs).reverse

/-- Python `str.strip()` on strings. -/
def pyStripS (s : String) : String := String.mk (pyStrip s.toList)

/-- Do the first and last characters exist, coincide, and form a quote
pair (both single quotes or both double quotes)? -/
def sameQuoteEnds (t : List Char) : Bool :=
  match t.head?, t.getLast? with
  | some a, some b => a = b && (a = squote || a = dquote)
  | _, _ => false

/-- Source `strip_quotes`: strip surrounding whitespace, then remove one
layer of matching outer quotes when the trimmed text has length at least
two and begins and ends with the same quote character. -/
def strip_quotes (s : String) : String :=
  let t := pyStrip s.toList
  if 2 ≤ t.length ∧ sameQuoteEnds t then String.mk ((t.drop 1).dropLast)
  else String.mk t

/-- One character of `php_escape`: backslash doubles, a single quote
gains a backslash, all else is kept. -/
def phpEscapeChar (c : Char) : List Char :=
  if c = bslash then [bslash, bslash]
  else if c = squote then [bslash, squote]
  else [c]

/-- Source `php_escape`: replace backslash by double backslash, then
single quote by backslash-quote.  The two sequential `str.replace`
passes of the source equal this single character-wise pass, because the
second pass only rewrites quote characters, which the first pass never
produces. -/
def php_escape (s : String) : String :=
  String.mk (s.toList.map phpEscapeChar).flatten

/-- A parsed field map (Python dict of string keys and values). -/
abbrev FieldMap := List (String × String)

/-- Python dict lookup (`d.get(k)` without default). -/
def dictFind : FieldMap → String → Option String
  | [], _ => none
  | (k0, v0) :: rest, k => if k0 = k then some v0 else dictFind rest k

/-- Python `k in d`. -/
def dictHas (d : FieldMap) (k : String) : Bool := (dictFind d k).isSome

/-- Python `d.get(k, dflt)`. -/
def dictGetD (d : FieldMap) (k : String) (dflt : String) : String :=
  (dictFind d k).getD dflt

/-- Python dict assignment: update an existing key in place, otherwise
append the binding. -/
def dictSet : FieldMap → String → String → FieldMap
  | [], k, v => [(k, v)]
  | (k0, v0) :: rest, k, v =>
      if k0 = k then (k0, v) :: rest else (k0, v0) :: dictSet rest k v

/-- Inner scan of BLOCK_RE: from the position after an opening brace,
collect characters up to the next closing brace; fail if another opening
brace or the end of input comes first.  This is exactly the regex
brace, non-brace-star, brace with a greedy character class. -/
def scanInner : List Char → Option (List Char × List Char)
  | [] => none
  | c :: rest =>
      if c = rbrace then some ([], rest)
      else if c = lbrace then none
      else
        match scanInner rest with
        | some (inner, rest2) => some (c :: inner, rest2)
        | none => none

/-- Fueled left-to-right scan for all non-overlapping BLOCK_RE matches;
on a failed attempt the scan advances one character, as `finditer`
does. -/
def extractBlocksL : Nat → List Char → List (List Char)
  | 0, _ => []
  | _, [] => []
  | fuel + 1, c :: rest =>
      if c = lbrace then
        match scanInner rest with
        | some (inner, rest2) => inner :: extractBlocksL fuel rest2
        | none => extractBlocksL fuel rest
      else extractBlocksL fuel rest

/-- Source `BLOCK_RE.findall(text)`: the captured inner texts of all
brace blocks. -/
def extractBlocks (s : String) : List String :=
  (extractBlocksL s.toList.length s.toList).map String.mk

/-- Is `c` an identifier start character for PAIR_RE keys
(ASCII letter or underscore)? -/
def identStart (c : Char) : Bool := c.isAlpha || c = '_'

/-- Is `c` an identifier continuation character (ASCII letter, digit or
underscore)? -/
def identCont (c : Char) : Bool := c.isAlphanum || c = '_'

/-- All candidate parses of the quoted-string value alternative of
PAIR_RE after the opening quote `q`, in regex backtracking priority
order.  At each step the greedy star first tries to consume a
backslash-quote pair, then any single non-quote character, and closing
the string is tried last.  Each candidate is the consumed content
together with the remainder after the closing quote. -/
def quotedCands (q : Char) : Nat → List Char → List (List Char × List Char)
  | 0, _ => []
  | fuel + 1, cs =>
      (match cs with
       | a :: b :: rest =>
           if a = bslash && b = q then
             (quotedCands q fuel rest).map (fun p => (a :: b :: p.1, p.2))
           else []
       | _ => []) ++
      (match cs with
       | c :: rest =>
           if c = q then []
           else (quotedCands q fuel rest).map (fun p => (c :: p.1, p.2))
       | [] => []) ++
      (match cs with
       | c :: rest => if c = q then [(([] : List Char), rest)] else []
       | [] => [])

/-- Longest run of decimal digits and the remainder. -/
def digitRun (cs : List Char) : List Char × List Char :=
  (cs.takeWhile Char.isDigit, cs.dropWhile Char.isDigit)

/-- Candidates of the numeric value alternative of PAIR_RE (optional
minus sign, digits, optional dot-digits), in backtracking order: with
the fractional part first, then without it.  Shorter digit prefixes are
never viable because the mandatory pair tail (whitespace-star, then
comma or end) rejects a following digit or dot, so they are omitted. -/
def numberCands (cs : List Char) : List (List Char × List Char) :=
  let sign : List Char × List Char :=
    match cs with
    | c :: rest => if c = '-' then ([c], rest) else ([], cs)
    | [] => ([], cs)
  let ds := digitRun sign.2
  if ds.1.isEmpty then []
  else
    let base : List Char × List Char := (sign.1 ++ ds.1, ds.2)
    match ds.2 with
    | c :: rest =>
        if c = '.' then
          let fs := digitRun rest
          if fs.1.isEmpty then [base]
          else [(sign.1 ++ ds.1 ++ c :: fs.1, fs.2), base]
        else [base]
    | [] => [base]

/-- Candidate of the parenthesized value alternative of PAIR_RE: an
opening parenthesis, one or more non-closing-parenthesis characters,
and a closing parenthesis.  The greedy run admits no viable shorter
backtracking candidates (a shorter run faces a non-closing character
where the closing parenthesis is required). -/
def parenCand (cs : List Char) : List (List Char × List Char) :=
  match cs with
  | c :: rest =>
      if c = '(' then
        let run := rest.takeWhile (fun x => x ≠ ')')
        let cs2 := rest.dropWhile (fun x => x ≠ ')')
        if run.isEmpty then []
        else
          match cs2 with
          | c2 :: rest2 => if c2 = ')' then [(c :: run ++ [c2], rest2)] else []
          | [] => []
      else []
  | [] => []

/-- Candidate of the fallback value alternative of PAIR_RE: a maximal
nonempty run of characters other than comma and closing brace.  When
any backtracking candidate of this alternative satisfies the pair tail,
the maximal one does and is preferred, so only it is produced. -/
def fallbackCand (cs : List Char) : List (List Char × List Char) :=
  let run := cs.takeWhile (fun c => c ≠ ',' && c ≠ rbrace)
  if run.isEmpty then [] else [(run, cs.drop run.length)]

/-- The pair tail of PAIR_RE: greedy whitespace, then a comma
(consumed) or the end of input.  A dollar anchor before a lone trailing
newline yields the same pair list as consuming that newline, so the
simpler form is used. -/
def followCk (cs : List Char) : Option (List Char) :=
  let cs2 := cs.dropWhile pyIsWs
  match cs2 with
  | c :: rest => if c = ',' then some rest else none
  | [] => some []

/-- First value candidate whose tail check succeeds, with the remainder
after the tail. -/
def firstViable : List (List Char × List Char) → Option (List Char × List Char)
  | [] => none
  | (v, rest) :: more =>
      match followCk rest with
      | some rest2 => some (v, rest2)
      | none => firstViable more

/-- All value candidates at a position, over the alternatives of
PAIR_RE in their order: single-quoted, double-quoted, number,
parenthesized group, fallback run. -/
def valueCands (cs : List Char) : List (List Char × List Char) :=
  (match cs with
   | c :: rest =>
       if c = squote then
         (quotedCands squote rest.length rest).map
           (fun p => (squote :: p.1 ++ [squote], p.2))
       else if c = dquote then
         (quotedCands dquote rest.length rest).map
           (fun p => (dquote :: p.1 ++ [dquote], p.2))
       else []
   | [] => []) ++
  numberCands cs ++ parenCand cs ++ fallbackCand cs

/-- Value candidates with the backtracking of the greedy whitespace
run after the colon: the regex first commits to the longest whitespace
run before the value, and on failure gives whitespace characters back
one at a time, retrying every value alternative at each position (in
practice only the fallback class, which admits whitespace, can match
before the run ends).  Candidates appear in that priority order. -/
def valueCandsWs (cs : List Char) : List (List Char × List Char) :=
  let n := (cs.takeWhile pyIsWs).length
  ((List.range (n + 1)).map (fun j => valueCands (cs.drop (n - j)))).flatten

/-- Attempt a full PAIR_RE match at the current position: identifier
key, colon with surrounding whitespace, value (first viable candidate
over the whitespace-backtracked alternatives), pair tail.  Returns the
key and raw value texts and the remainder after the match.  The
whitespace before the colon admits no backtracking: a shorter run
leaves a whitespace character where the colon is required. -/
def matchPair (cs : List Char) : Option ((String × String) × List Char) :=
  match cs with
  | c :: rest =>
      if identStart c then
        let key := c :: rest.takeWhile identCont
        let cs1 := (rest.dropWhile identCont).dropWhile pyIsWs
        match cs1 with
        | c2 :: cs2 =>
            if c2 = ':' then
              match firstViable (valueCandsWs cs2) with
              | some (v, rest2) => some ((String.mk key, String.mk v), rest2)
              | none => none
            else none
        | [] => none
      else none
  | [] => none

/-- Fueled `PAIR_RE.finditer` scan: attempt a match at each position;
on success continue after the match, on failure advance one
character. -/
def pairsScanL : Nat → List Char → List (String × String)
  | 0, _ => []
  | fuel + 1, cs =>
      match cs with
      | [] => []
      | _ :: rest =>
          match matchPair cs with
          | some (kv, rest2) => kv :: pairsScanL fuel rest2
          | none => pairsScanL fuel rest

/-- All PAIR_RE matches of a block text, in order. -/
def pairsScan (cs : List Char) : List (String × String) :=
  pairsScanL cs.length cs

/-- Source `parse_block`: fold the scanned pairs into a dict, stripping
the key and the raw value and removing one layer of outer quotes from
the value. -/
def parse_block (b : String) : FieldMap :=
  (pairsScan b.toList).foldl
    (fun d kv => dictSet d (pyStripS kv.1) (strip_quotes (pyStripS kv.2))) []

/-- Result of Python `float(s)` in the model: a finite value written as
a sign, a decimal mantissa and a decimal scale (the value is
mant / 10 ^ scale, negated when neg is true), or an infinity, or a
not-a-number. -/
inductive PyFloat where
  | finite (neg : Bool) (mant : Nat) (scale : Int)
  | infinite (neg : Bool)
  | nan
deriving DecidableEq, Repr

/-- Greedy scan of a Python digit group: digits with single underscores
allowed between digits.  Returns the digits (underscores dropped) and
the remainder; an underscore not followed by a digit is left in the
remainder together with everything after the last digit. -/
def digitGroupGo : Nat → List Char → List Char × List Char
  | 0, cs => ([], cs)
  | fuel + 1, cs =>
      match cs with
      | c :: rest =>
          if c.isDigit then
            let p := digitGroupGo fuel rest
            (c :: p.1, p.2)
          else if c = '_' then
            match rest with
            | c2 :: rest2 =>
                if c2.isDigit then
                  let p := digitGroupGo fuel rest2
                  (c2 :: p.1, p.2)
                else ([], cs)
            | [] => ([], cs)
          else ([], cs)
      | [] => ([], cs)

/-- A digit group that must start with a digit; `none` otherwise. -/
def digitGroup (cs : List Char) : Option (List Char × List Char) :=
  match cs with
  | c :: _ => if c.isDigit then some (digitGroupGo cs.length cs) else none
  | [] => none

/-- Natural number denoted by a digit list (most significant first). -/
def natOfDigits (ds : List Char) : Nat :=
  ds.foldl (fun n c => n * 10 + (c.toNat - 48)) 0

/-- Case-insensitive comparison of a character list with a keyword. -/
def lowerEq (cs : List Char) (w : String) : Bool :=
  cs.map Char.toLower = w.toList

/-- Number of decimal digits of a natural number (one for zero). -/
def natDigitCountGo : Nat → Nat → Nat
  | 0, _ => 0
  | fuel + 1, n => if n < 10 then 1 else natDigitCountGo fuel (n / 10) + 1

/-- Number of decimal digits of a natural number. -/
def natDigitCount (n : Nat) : Nat := natDigitCountGo (n + 1) n

/-- Smallest positive real whose decimal parse overflows a double to
infinity: the largest finite double plus half an ulp, written exactly
as a natural number. -/
def floatThreshold : Nat := (2 ^ 54 - 1) * 2 ^ 970

/-- Classify a parsed decimal as a double: zero mantissa is zero; a
magnitude at least `floatThreshold` overflows to infinity (decided
exactly, with cheap bounds first so that enormous exponents never force
enormous powers); all else is kept as an exact finite value. -/
def classifyFloat (neg : Bool) (mant : Nat) (scale : Int) : PyFloat :=
  if mant = 0 then .finite neg 0 0
  else
    let decExp : Int := (natDigitCount mant : Int) - scale
    if 310 ≤ decExp then .infinite neg
    else if decExp ≤ 308 then .finite neg mant scale
    else
      let overflow :=
        if 0 ≤ scale then decide (floatThreshold * 10 ^ scale.toNat ≤ mant)
        else decide (floatThreshold ≤ mant * 10 ^ (-scale).toNat)
      if overflow then .infinite neg else .finite neg mant scale

/-- Exponent suffix of the float grammar: empty input means exponent
zero; otherwise the letter e, an optional sign and a digit group must
consume the whole remainder. -/
def parseExp (cs : List Char) : Option Int :=
  match cs with
  | [] => some 0
  | c :: rest =>
      if c = 'e' || c = 'E' then
        let sr : Bool × List Char :=
          match rest with
          | c2 :: rest2 =>
              if c2 = '-' then (true, rest2)
              else if c2 = '+' then (false, rest2)
              else (false, rest)
          | [] => (false, rest)
        match digitGroup sr.2 with
        | some (ds, leftover) =>
            if leftover.isEmpty then
              some (if sr.1 then -(natOfDigits ds : Int) else (natOfDigits ds : Int))
            else none
        | none => none
      else none

/-- Python `float(s)`: strip surrounding whitespace, optional sign,
then either an inf/infinity/nan keyword or a decimal number (integer
digits, optional fraction, optional exponent, underscores between
digits), which must consume the entire string. -/
def pyFloatParse (s : String) : Option PyFloat :=
  let cs := pyStrip s.toList
  let sg : Bool × List Char :=
    match cs with
    | c :: rest =>
        if c = '-' then (true, rest)
        else if c = '+' then (false, rest)
        else (false, cs)
    | [] => (false, cs)
  if lowerEq sg.2 "inf" || lowerEq sg.2 "infinity" then some (.infinite sg.1)
  else if lowerEq sg.2 "nan" then some PyFloat.nan
  else
    let ipr : List Char × List Char :=
      match digitGroup sg.2 with
      | some p => p
      | none => ([], sg.2)
    let fpr : List Char × List Char :=
      match ipr.2 with
      | c :: rest =>
          if c = '.' then
            match digitGroup rest with
            | some p => p
            | none => ([], rest)
          else ([], ipr.2)
      | [] => ([], ipr.2)
    if ipr.1.isEmpty && fpr.1.isEmpty then none
    else
      match parseExp fpr.2 with
      | some e =>
          some (classifyFloat sg.1 (natOfDigits (ipr.1 ++ fpr.1))
            ((fpr.1.length : Int) - e))
      | none => none

/-- Round a/b to the nearest integer, ties to even (b positive). -/
def roundHalfEven (a b : Nat) : Nat :=
  let q := a / b
  let r := a % b
  if 2 * r < b then q
  else if b < 2 * r then q + 1
  else if q % 2 = 0 then q else q + 1

/-- Fueled floor base-two logarithm (zero below two), written
structurally so that kernel reduction can compute it. -/
def natLog2Go : Nat → Nat → Nat
  | 0, _ => 0
  | fuel + 1, n => if n < 2 then 0 else natLog2Go fuel (n / 2) + 1

/-- Floor of the base-two logarithm of a natural number. -/
def natLog2 (n : Nat) : Nat := natLog2Go n n

/-- Floor of the base-two logarithm of N/D (both positive): the unique
k with 2^k at most N/D < 2^(k+1), computed from the bit lengths with
one exact correction test. -/
def binExpQ (N D : Nat) : Int :=
  let k0 : Int := (natLog2 N : Int) - (natLog2 D : Int)
  let ok :=
    if 0 ≤ k0 then decide (2 ^ k0.toNat * D ≤ N)
    else decide (D ≤ 2 ^ (-k0).toNat * N)
  if ok then k0 else k0 - 1

/-- Truncation toward zero of the double nearest to N/D, for N/D at
least one and below the overflow threshold: scale into the 53-bit
mantissa window, round half to even, and shift back, flooring when the
binary exponent is negative.  All doubles in this range are N/D of
naturals, so the computation is exact. -/
def truncRoundedDiv (N D : Nat) : Nat :=
  let e : Int := binExpQ N D - 52
  if 0 ≤ e then roundHalfEven N (D * 2 ^ e.toNat) * 2 ^ e.toNat
  else roundHalfEven (N * 2 ^ (-e).toNat) D / 2 ^ (-e).toNat

/-- Magnitude of Python int(float(..)) on a finite parsed value
mant / 10 ^ scale.  A value below one truncates to zero unless it
rounds up to exactly one, which happens precisely when it is at least
1 - 2^-54 (the nearest-even midpoint below one); that requires as many
mantissa digits as the scale, so tiny scales never build big powers.
A value of at least one is rounded to the nearest double exactly and
truncated. -/
def pyTruncMag (mant : Nat) (scale : Int) : Nat :=
  if mant = 0 then 0
  else if (natDigitCount mant : Int) ≤ scale then
    if (natDigitCount mant : Int) = scale
        ∧ (2 ^ 54 - 1) * 10 ^ scale.toNat ≤ mant * 2 ^ 54 then 1
    else 0
  else
    if scale ≤ 0 then truncRoundedDiv (mant * 10 ^ (-scale).toNat) 1
    else truncRoundedDiv mant (10 ^ scale.toNat)

/-- Python `int` applied to a finite float: truncation toward zero of
the nearest double to the exact decimal value. -/
def pyTrunc (neg : Bool) (mant : Nat) (scale : Int) : Int :=
  let mag := pyTruncMag mant scale
  if neg then -(mag : Int) else (mag : Int)

/-- Python `int(float(s))`: truncate a finite parse toward zero;
non-finite values and parse failures raise, modelled as `none`. -/
def pyIntOfString (s : String) : Option Int :=
  match pyFloatParse s with
  | some (.finite neg m sc) => some (pyTrunc neg m sc)
  | _ => none

/-- The duration fragment of a rendered line (`dur_part` in the
source): an unquoted truncated integer when `int(float(raw))`
succeeds, otherwise the escaped quoted raw text. -/
def durPart (raw : String) : String :=
  match pyIntOfString raw with
  | some n => "\x27duration\x27=>" ++ toString n
  | none => "\x27duration\x27=>\x27" ++ php_escape raw ++ "\x27"

/-- The competition value used by `to_php_line`: the Python expression
get competition or-else get comp or-else empty, where a missing key and
an empty value are both falsy. -/
def competitionValue (ev : FieldMap) : String :=
  let c := dictGetD ev "competition" ""
  if c ≠ "" then c else dictGetD ev "comp" ""

/-- Source `to_php_line`: one rendered PHP array line for an event. -/
def to_php_line (ev : FieldMap) : String :=
  let date := php_escape (dictGetD ev "date" "")
  let start := php_escape (dictGetD ev "start" "")
  let title := php_escape (dictGetD ev "title" "")
  let sport := php_escape (dictGetD ev "sport" "")
  let competition := php_escape (competitionValue ev)
  let url := php_escape (dictGetD ev "url" "")
  "[\x27date\x27=>\x27" ++ date ++ "\x27,\x27start\x27=>\x27" ++ start ++
    "\x27," ++ durPart (dictGetD ev "duration" "") ++ ",\x27title\x27=>\x27" ++
    title ++ "\x27,\x27sport\x27=>\x27" ++ sport ++
    "\x27,\x27competition\x27=>\x27" ++ competition ++
    "\x27,\x27url\x27=>\x27" ++ url ++ "\x27],"

/-- One pending item (the dict appended to `pending`). -/
structure PendingEntry where
  date : String
  start : String
  title : String
  url : String
deriving DecidableEq, Repr

/-- Does the needle occur as a prefix of the haystack? -/
def prefCk : List Char → List Char → Bool
  | [], _ => true
  | _ :: _, [] => false
  | a :: as, b :: bs => a = b && prefCk as bs

/-- Does the haystack contain the needle as a contiguous substring? -/
def subCk (needle : List Char) : List Char → Bool
  | [] => needle.isEmpty
  | c :: rest => prefCk needle (c :: rest) || subCk needle rest

/-- Python `needle in hay` on strings. -/
def strContains (hay needle : String) : Bool := subCk needle.toList hay.toList

/-- Python `str.upper()` (ASCII fragment). -/
def toUpperS (s : String) : String := String.mk (s.toList.map Char.toUpper)

/-- The pending-marker test of the source: the uppercased url contains
the substring ANAMONH. -/
def isPendingUrl (url : String) : Bool := strContains (toUpperS url) "ANAMONH"

/-- The comp-to-competition normalization of `convert`: when the dict
has no competition key but has a comp key, copy the comp value. -/
def normComp (ev : FieldMap) : FieldMap :=
  if !dictHas ev "competition" && dictHas ev "comp" then
    dictSet ev "competition" (dictGetD ev "comp" "")
  else ev

/-- One iteration of the block loop of `convert`: parse the block, drop
it when the dict is empty or lacks both date and title keys, otherwise
record a pending entry when the stripped url carries the marker,
normalize comp into competition, and append the event. -/
def step (acc : List FieldMap × List PendingEntry) (b : String) :
    List FieldMap × List PendingEntry :=
  let ev := parse_block b
  if ev.isEmpty then acc
  else if !dictHas ev "date" && !dictHas ev "title" then acc
  else
    let url := pyStripS (dictGetD ev "url" "")
    let pnd :=
      if isPendingUrl url then
        acc.2 ++ [⟨dictGetD ev "date" "", dictGetD ev "start" "",
          dictGetD ev "title" "", url⟩]
      else acc.2
    (acc.1 ++ [normComp ev], pnd)

/-- The accepted events and pending entries of an input, in block
encounter order. -/
def eventsAndPending (s : String) : List FieldMap × List PendingEntry :=
  (extractBlocks s).foldl step ([], [])

/-- Strict lexicographic comparison of character lists by code point,
as Python compares strings. -/
def ltB : List Char → List Char → Bool
  | [], [] => false
  | [], _ :: _ => true
  | _ :: _, [] => false
  | a :: as, b :: bs => if a < b then true else if b < a then false else ltB as bs

/-- Python string strict comparison. -/
def strLtB (a b : String) : Bool := ltB a.toList b.toList

/-- Python string non-strict comparison. -/
def strLeB (a b : String) : Bool := !strLtB b a

/-- The sort key of `convert`: the date and start values, empty when
absent. -/
def keyOf (ev : FieldMap) : String × String :=
  (dictGetD ev "date" "", dictGetD ev "start" "")

/-- Python tuple comparison of two (date, start) keys. -/
def pairLeB (x y : String × String) : Bool :=
  if strLtB x.1 y.1 then true
  else if strLtB y.1 x.1 then false
  else strLeB x.2 y.2

/-- Event comparison used by the sort. -/
def evLeB (a b : FieldMap) : Bool := pairLeB (keyOf a) (keyOf b)

/-- Ordered insertion before the first element that the inserted one
compares at most equal to; inserting before ties is what makes the
resulting sort stable. -/
def ordIns (le : α → α → Bool) (a : α) : List α → List α
  | [] => [a]
  | b :: l => if le a b then a :: b :: l else b :: ordIns le a l

/-- Stable insertion sort, the model of Python `list.sort` with a
key. -/
def insSort (le : α → α → Bool) : List α → List α
  | [] => []
  | a :: l => ordIns le a (insSort le l)

/-- The sorted event list of `convert`. -/
def sortEvents (evs : List FieldMap) : List FieldMap := insSort evLeB evs

/-- The output-line loop of `convert`: carry the previously emitted
date; a differing date inserts one empty line before the next rendered
line. -/
def renderLoop : Option String → List FieldMap → List String
  | _, [] => []
  | last, ev :: rest =>
      let d := dictGetD ev "date" ""
      (match last with
       | some ld => if d ≠ ld then [""] else []
       | none => []) ++ (to_php_line ev :: renderLoop (some d) rest)

/-- All output lines, blank separators included. -/
def renderLines (evs : List FieldMap) : List String := renderLoop none evs

/-- Source `convert`: the rendered text (lines joined by single
newlines, nothing appended) and the pending entries. -/
def convert (s : String) : String × List PendingEntry :=
  let ep := eventsAndPending s
  (String.intercalate "\n" (renderLines (sortEvents ep.1)), ep.2)

/-- The accepted events of an input (before sorting). -/
def eventsOf (s : String) : List FieldMap := (eventsAndPending s).1

/-- The pending entries of an input. -/
def pendingOf (s : String) : List PendingEntry := (eventsAndPending s).2

/-! ### Order lemmas for the comparator -/

theorem ltB_irrefl (a : List Char) : ltB a a = false := by
  induction a with
  | nil => rfl
  | cons c cs ih => simp [ltB, lt_irrefl, ih]

theorem ltB_trans {a b c : List Char} (h1 : ltB a b = true)
    (h2 : ltB b c = true) : ltB a c = true := by
  induction a generalizing b c with
  | nil =>
    cases b with
    | nil => simp [ltB] at h1
    | cons b0 bs =>
      cases c with
      | nil => simp [ltB] at h2
      | cons c0 cs => simp [ltB]
  | cons a0 as ih =>
    cases b with
    | nil => simp [ltB] at h1
    | cons b0 bs =>
      cases c with
      | nil => simp [ltB] at h2
      | cons c0 cs =>
        simp only [ltB] at h1 h2 ⊢
        by_cases hab : a0 < b0
        · simp [hab] at h1
          by_cases hbc : b0 < c0
          · simp [lt_trans hab hbc]
          · by_cases hcb : c0 < b0
            · simp [hbc, hcb] at h2
            · have : b0 = c0 := le_antisymm (not_lt.mp hcb) (not_lt.mp hbc)
              subst this
              simp [hab]
        · by_cases hba : b0 < a0
          · simp [hab, hba] at h1
          · have : a0 = b0 := le_antisymm (not_lt.mp hba) (not_lt.mp hab)
            subst this
            simp [hab] at h1
            by_cases hbc : a0 < c0
            · simp [hbc]
            · by_cases hcb : c0 < a0
              · simp [hbc, hcb] at h2
              · have : a0 = c0 := le_antisymm (not_lt.mp hcb) (not_lt.mp hbc)
                subst this
                simp [hab] at h2 ⊢
                exact ih h1 h2

theorem ltB_conn {a b : List Char} (h1 : ltB a b = false)
    (h2 : ltB b a = false) : a = b := by
  induction a generalizing b with
  | nil =>
    cases b with
    | nil => rfl
    | cons b0 bs => simp [ltB] at h1
  | cons a0 as ih =>
    cases b with
    | nil => simp [ltB] at h2
    | cons b0 bs =>
      simp only [ltB] at h1 h2
      by_cases hab : a0 < b0
      · simp [hab] at h1
      · by_cases hba : b0 < a0
        · simp [hab, hba] at h2
        · have he : a0 = b0 := le_antisymm (not_lt.mp hba) (not_lt.mp hab)
          subst he
          simp [hab] at h1 h2
          rw [ih h1 h2]

theorem strLt_trans {a b c : String} (h1 : strLtB a b = true)
    (h2 : strLtB b c = true) : strLtB a c = true := ltB_trans h1 h2

theorem strLt_conn {a b : String} (h1 : strLtB a b = false)
    (h2 : strLtB b a = false) : a = b := by
  have h := ltB_conn (a := a.toList) (b := b.toList) h1 h2
  cases a; cases b
  simpa [String.toList] using congrArg String.mk h

theorem strLt_irrefl (a : String) : strLtB a a = false := ltB_irrefl a.toList

theorem strLt_asymm {a b : String} (h : strLtB a b = true) :
    strLtB b a = false := by
  by_contra hc
  simp only [Bool.not_eq_false] at hc
  have := strLt_trans h hc
  rw [strLt_irrefl] at this
  exact Bool.false_ne_true this

theorem strLe_refl (a : String) : strLeB a a = true := by
  simp [strLeB, strLt_irrefl]

theorem strLe_total (a b : String) : strLeB a b = true ∨ strLeB b a = true := by
  rcases Bool.eq_false_or_eq_true (strLtB b a) with h | h
  · right; simp [strLeB, strLt_asymm h]
  · left; simp [strLeB, h]

theorem strLe_trans {a b c : String} (h1 : strLeB a b = true)
    (h2 : strLeB b c = true) : strLeB a c = true := by
  simp only [strLeB, Bool.not_eq_true'] at h1 h2 ⊢
  by_contra hc
  simp only [Bool.not_eq_false] at hc
  rcases Bool.eq_false_or_eq_true (strLtB a b) with g1 | g1
  · rcases Bool.eq_false_or_eq_true (strLtB b c) with g2 | g2
    · have := strLt_trans (strLt_trans g1 g2) hc
      rw [strLt_irrefl] at this
      exact Bool.false_ne_true this
    · have hbc : b = c := strLt_conn g2 h2
      rw [← hbc] at hc
      rw [hc] at h1
      simp at h1
  · have hab : a = b := strLt_conn g1 h1
    rcases Bool.eq_false_or_eq_true (strLtB b c) with g2 | g2
    · rw [← hab] at g2
      have := strLt_trans g2 hc
      rw [strLt_irrefl] at this
      exact Bool.false_ne_true this
    · have hbc : b = c := strLt_conn g2 h2
      rw [hab, hbc, strLt_irrefl] at hc
      exact Bool.false_ne_true hc

theorem pairLe_iff (x y : String × String) :
    pairLeB x y = true ↔
      (strLtB x.1 y.1 = true ∨ (x.1 = y.1 ∧ strLeB x.2 y.2 = true)) := by
  unfold pairLeB
  rcases Bool.eq_false_or_eq_true (strLtB x.1 y.1) with h1 | h1
  · simp [h1]
  · rcases Bool.eq_false_or_eq_true (strLtB y.1 x.1) with h2 | h2
    · constructor
      · intro hc
        rw [h1, h2] at hc
        simp at hc
      · rintro (hc | ⟨he, _⟩)
        · rw [h1] at hc
          simp at hc
        · rw [he, strLt_irrefl] at h2
          simp at h2
    · have he : x.1 = y.1 := strLt_conn h1 h2
      rw [h1, h2]
      simp [he]

theorem pairLeB_refl (x : String × String) : pairLeB x x = true := by
  rw [pairLe_iff]
  exact Or.inr ⟨rfl, strLe_refl x.2⟩

theorem pairLeB_total (x y : String × String) :
    pairLeB x y = true ∨ pairLeB y x = true := by
  rw [pairLe_iff, pairLe_iff]
  rcases Bool.eq_false_or_eq_true (strLtB x.1 y.1) with h1 | h1
  · exact Or.inl (Or.inl h1)
  · rcases Bool.eq_false_or_eq_true (strLtB y.1 x.1) with h2 | h2
    · exact Or.inr (Or.inl h2)
    · have he : x.1 = y.1 := strLt_conn h1 h2
      rcases strLe_total x.2 y.2 with h3 | h3
      · exact Or.inl (Or.inr ⟨he, h3⟩)
      · exact Or.inr (Or.inr ⟨he.symm, h3⟩)

theorem pairLeB_trans {x y z : String × String} (h1 : pairLeB x y = true)
    (h2 : pairLeB y z = true) : pairLeB x z = true := by
  rw [pairLe_iff] at h1 h2 ⊢
  rcases h1 with h1 | ⟨he1, hl1⟩
  · rcases h2 with h2 | ⟨he2, _⟩
    · exact Or.inl (strLt_trans h1 h2)
    · rw [he2] at h1
      exact Or.inl h1
  · rcases h2 with h2 | ⟨he2, hl2⟩
    · rw [← he1] at h2
      exact Or.inl h2
    · exact Or.inr ⟨he1.trans he2, strLe_trans hl1 hl2⟩

theorem evLeB_total (a b : FieldMap) : evLeB a b = true ∨ evLeB b a = true :=
  pairLeB_total (keyOf a) (keyOf b)

theorem evLeB_trans {a b c : FieldMap} (h1 : evLeB a b = true)
    (h2 : evLeB b c = true) : evLeB a c = true :=
  pairLeB_trans h1 h2

theorem evLeB_of_keyEq {a b : FieldMap} (h : keyOf a = keyOf b) :
    evLeB a b = true := by
  unfold evLeB
  rw [h]
  exact pairLeB_refl (keyOf b)


/-! ### Characterization of the convert loop -/

/-- Acceptance predicate: the parsed map has a date key or a title key
(an empty map has neither, so the emptiness test of the source adds
nothing). -/
def acceptB (ev : FieldMap) : Bool := dictHas ev "date" || dictHas ev "title"

/-- Pending extraction: when the stripped url value carries the pending
marker, an entry holding the date, start and title values and that
stripped url. -/
def pendFn (ev : FieldMap) : Option PendingEntry :=
  let url := pyStripS (dictGetD ev "url" "")
  if isPendingUrl url then
    some ⟨dictGetD ev "date" "", dictGetD ev "start" "",
      dictGetD ev "title" "", url⟩
  else none

theorem step_eq (acc : List FieldMap × List PendingEntry) (b : String) :
    step acc b =
      if acceptB (parse_block b) = true then
        (acc.1 ++ [normComp (parse_block b)],
          acc.2 ++ (pendFn (parse_block b)).toList)
      else acc := by
  unfold step acceptB pendFn
  cases hev : parse_block b with
  | nil => simp [dictHas, dictFind]
  | cons kv rest =>
    simp only [List.isEmpty_cons, Bool.false_eq_true, if_false]
    cases hd : dictHas (kv :: rest) "date" <;>
      cases ht : dictHas (kv :: rest) "title" <;>
        simp only [hd, ht, Bool.not_true, Bool.not_false, Bool.and_true,
          Bool.and_false, Bool.true_and, Bool.false_and, Bool.or_self,
          Bool.true_or, Bool.or_true, Bool.false_or, if_true, if_false,
          Bool.true_eq_false, Bool.false_eq_true] <;>
      cases hp : isPendingUrl (pyStripS (dictGetD (kv :: rest) "url" "")) <;>
        simp [hp]

theorem foldl_step (bs : List String) :
    ∀ acc : List FieldMap × List PendingEntry,
      bs.foldl step acc =
        (acc.1 ++ ((bs.map parse_block).filter acceptB).map normComp,
          acc.2 ++ ((bs.map parse_block).filter acceptB).filterMap pendFn) := by
  induction bs with
  | nil => intro acc; simp
  | cons b bs ih =>
    intro acc
    rw [List.foldl_cons, step_eq, List.map_cons, List.filter_cons]
    by_cases h : acceptB (parse_block b) = true
    · rw [if_pos h, if_pos h, ih]
      cases hp : pendFn (parse_block b) with
      | none => simp [List.filterMap_cons, hp]
      | some e => simp [List.filterMap_cons, hp]
    · rw [if_neg h, ih, if_neg]
      exact h

theorem eventsOf_eq (s : String) :
    eventsOf s =
      (((extractBlocks s).map parse_block).filter acceptB).map normComp := by
  unfold eventsOf eventsAndPending
  rw [foldl_step]
  simp

theorem pendingOf_eq (s : String) :
    pendingOf s =
      (((extractBlocks s).map parse_block).filter acceptB).filterMap pendFn := by
  unfold pendingOf eventsAndPending
  rw [foldl_step]
  simp

/-! ### Structure of the rendered lines -/

/-- Spec-side tail of the output lines: carrying the date of the
previously emitted event, each event contributes one blank line exactly
when its date differs from that previous date, followed by its own
rendered line. -/
def sepsFromD (d0 : String) : List FieldMap → List String
  | [] => []
  | ev :: rest =>
      (if dictGetD ev "date" "" ≠ d0 then [""] else []) ++
        (to_php_line ev :: sepsFromD (dictGetD ev "date" "") rest)

theorem renderLoop_some (l : List FieldMap) :
    ∀ d0, renderLoop (some d0) l = sepsFromD d0 l := by
  induction l with
  | nil => intro d0; rfl
  | cons ev rest ih =>
    intro d0
    unfold renderLoop sepsFromD
    dsimp only
    rw [ih]

theorem renderLines_cons (e : FieldMap) (es : List FieldMap) :
    renderLines (e :: es) =
      to_php_line e :: sepsFromD (dictGetD e "date" "") es := by
  unfold renderLines renderLoop
  dsimp only
  rw [renderLoop_some]
  simp

theorem to_php_line_ne_empty (ev : FieldMap) : to_php_line ev ≠ "" := by
  intro h
  have h2 : (to_php_line ev).length = 0 := by rw [h]; rfl
  simp only [to_php_line, String.length_append] at h2
  have h3 : (0 : Nat) < ("[\x27date\x27=>\x27" : String).length := by decide
  omega

theorem renderLoop_line_count (l : List FieldMap) :
    ∀ last,
      ((renderLoop last l).filter (fun x => !(x == ""))).length = l.length := by
  induction l with
  | nil => intro last; cases last <;> rfl
  | cons ev rest ih =>
    intro last
    have hne : (to_php_line ev == "") = false :=
      beq_eq_false_iff_ne.mpr (to_php_line_ne_empty ev)
    unfold renderLoop
    cases last with
    | none => simp [List.filter_cons, hne, ih]
    | some ld =>
      by_cases hd : dictGetD ev "date" "" ≠ ld <;>
        simp [hd, List.filter_cons, hne, ih]

/-! ### Whitespace stripping and quote stripping lemmas -/

theorem dropWhile_head_false {α : Type} {p : α → Bool} :
    ∀ {l : List α} {c : α} {t : List α}, l.dropWhile p = c :: t → p c = false := by
  intro l
  induction l with
  | nil => intro c t h; exact absurd h (by simp)
  | cons a l ih =>
    intro c t h
    rw [List.dropWhile_cons] at h
    by_cases ha : p a
    · rw [if_pos (by simp [ha])] at h
      exact ih h
    · rw [if_neg (by simp [Bool.not_eq_true] at ha; simp [ha])] at h
      rcases List.cons.inj h with ⟨h1, _⟩
      rw [← h1]
      simp [Bool.not_eq_true] at ha
      exact ha

theorem dropWhile_dropWhile {α : Type} (p : α → Bool) (l : List α) :
    (l.dropWhile p).dropWhile p = l.dropWhile p := by
  cases h : l.dropWhile p with
  | nil => rfl
  | cons c t =>
    rw [List.dropWhile_cons, dropWhile_head_false h]
    simp

theorem pyStrip_head_false {l : List Char} {c : Char} {t : List Char}
    (h : pyStrip l = c :: t) : pyIsWs c = false := by
  have h2 : List.takeWhile pyIsWs ((l.dropWhile pyIsWs).reverse)
      ++ List.dropWhile pyIsWs ((l.dropWhile pyIsWs).reverse)
      = (l.dropWhile pyIsWs).reverse := List.takeWhile_append_dropWhile _ _
  have h3 := congrArg List.reverse h2
  rw [List.reverse_append, List.reverse_reverse] at h3
  unfold pyStrip at h
  rw [h, List.cons_append] at h3
  exact dropWhile_head_false h3.symm

theorem pyStrip_no_lead (l : List Char) :
    (pyStrip l).dropWhile pyIsWs = pyStrip l := by
  cases h : pyStrip l with
  | nil => rfl
  | cons c t =>
    rw [List.dropWhile_cons, pyStrip_head_false h]
    simp

theorem pyStrip_idem (l : List Char) : pyStrip (pyStrip l) = pyStrip l := by
  show (((pyStrip l).dropWhile pyIsWs).reverse.dropWhile pyIsWs).reverse
    = pyStrip l
  rw [pyStrip_no_lead l]
  have h2 : (pyStrip l).reverse
      = ((l.dropWhile pyIsWs).reverse).dropWhile pyIsWs := by
    show ((((l.dropWhile pyIsWs).reverse).dropWhile pyIsWs).reverse).reverse = _
    rw [List.reverse_reverse]
  rw [h2, dropWhile_dropWhile, ← h2, List.reverse_reverse]

/-- Spec-side quote stripping, stated exactly as the claim words it:
on already-trimmed text, remove the outer characters only when the text
has length at least two and begins and ends with the same quote
character; otherwise keep the text verbatim. -/
def stripQuotesSpecL (t : List Char) : List Char :=
  if 2 ≤ t.length ∧ sameQuoteEnds t then (t.drop 1).dropLast else t

theorem strip_quotes_eq_spec (s : String) :
    strip_quotes s = String.mk (stripQuotesSpecL (pyStrip s.toList)) := by
  unfold strip_quotes stripQuotesSpecL
  dsimp only
  by_cases h : 2 ≤ (pyStrip s.toList).length ∧ sameQuoteEnds (pyStrip s.toList) = true
  · rw [if_pos h, if_pos h]
  · rw [if_neg h, if_neg h]

theorem dictFind_dictSet (d : FieldMap) (k0 v0 k : String) :
    dictFind (dictSet d k0 v0) k =
      if k0 = k then some v0 else dictFind d k := by
  induction d with
  | nil =>
    unfold dictSet dictFind
    by_cases h : k0 = k <;> simp [h, dictFind]
  | cons kv rest ih =>
    obtain ⟨k1, v1⟩ := kv
    unfold dictSet
    by_cases h : k1 = k0
    · rw [if_pos h]
      subst h
      by_cases hk : k1 = k <;> simp [dictFind, hk]
    · rw [if_neg h]
      by_cases hk : k1 = k
      · subst hk
        have hne : ¬k0 = k1 := fun hc => h hc.symm
        simp [dictFind, hne]
      · simp [dictFind, hk, ih]

theorem dictFind_fold_val (ps : List (String × String)) :
    ∀ (d : FieldMap) (k v : String),
      dictFind (ps.foldl (fun d kv =>
        dictSet d (pyStripS kv.1) (strip_quotes (pyStripS kv.2))) d) k = some v →
      dictFind d k = some v
        ∨ ∃ kv ∈ ps, pyStripS kv.1 = k ∧ v = strip_quotes (pyStripS kv.2) := by
  induction ps with
  | nil => intro d k v h; exact Or.inl h
  | cons kv0 ps ih =>
    intro d k v h
    rw [List.foldl_cons] at h
    rcases ih _ k v h with h2 | ⟨kv, hmem, hk, hv⟩
    · rw [dictFind_dictSet] at h2
      by_cases he : pyStripS kv0.1 = k
      · rw [if_pos he] at h2
        exact Or.inr ⟨kv0, List.mem_cons_self kv0 ps, he,
          (Option.some.inj h2).symm⟩
      · rw [if_neg he] at h2
        exact Or.inl h2
    · exact Or.inr ⟨kv, List.mem_cons_of_mem kv0 hmem, hk, hv⟩

/-! ### Stable insertion sort lemmas -/

theorem perm_ordIns {α : Type} (le : α → α → Bool) (a : α) (l : List α) :
    List.Perm (ordIns le a l) (a :: l) := by
  induction l with
  | nil => exact List.Perm.refl _
  | cons b l ih =>
    unfold ordIns
    by_cases h : le a b
    · simp [h]
    · simp only [h, if_false, Bool.false_eq_true]
      exact (ih.cons b).trans (List.Perm.swap a b l)

theorem perm_insSort {α : Type} (le : α → α → Bool) (l : List α) :
    List.Perm (insSort le l) l := by
  induction l with
  | nil => exact List.Perm.refl _
  | cons a l ih =>
    unfold insSort
    exact (perm_ordIns le a (insSort le l)).trans (ih.cons a)

theorem mem_ordIns {α : Type} {le : α → α → Bool} {a x : α} {l : List α}
    (h : x ∈ ordIns le a l) : x = a ∨ x ∈ l := by
  have := (perm_ordIns le a l).mem_iff.mp h
  simpa using this

theorem pairwise_ordIns {α : Type} {le : α → α → Bool}
    (htot : ∀ x y, le x y = true ∨ le y x = true)
    (htr : ∀ x y z, le x y = true → le y z = true → le x z = true)
    (a : α) (l : List α) (h : l.Pairwise (fun x y => le x y = true)) :
    (ordIns le a l).Pairwise (fun x y => le x y = true) := by
  induction l with
  | nil => simp [ordIns]
  | cons b l ih =>
    rcases List.pairwise_cons.mp h with ⟨hb, hl⟩
    unfold ordIns
    by_cases hab : le a b
    · simp only [hab, if_true]
      refine List.pairwise_cons.mpr ⟨?_, h⟩
      intro x hx
      rcases List.mem_cons.mp hx with hx | hx
      · rw [hx]; exact hab
      · exact htr a b x hab (hb x hx)
    · simp only [hab, if_false, Bool.false_eq_true]
      refine List.pairwise_cons.mpr ⟨?_, ih hl⟩
      intro x hx
      rcases mem_ordIns hx with hx | hx
      · rw [hx]
        rcases htot a b with hc | hc
        · exact absurd hc hab
        · exact hc
      · exact hb x hx

theorem pairwise_insSort {α : Type} {le : α → α → Bool}
    (htot : ∀ x y, le x y = true ∨ le y x = true)
    (htr : ∀ x y z, le x y = true → le y z = true → le x z = true)
    (l : List α) : (insSort le l).Pairwise (fun x y => le x y = true) := by
  induction l with
  | nil => simp [insSort]
  | cons a l ih => exact pairwise_ordIns htot htr a (insSort le l) ih

theorem filter_ordIns {α : Type} {le : α → α → Bool} {pk : α → Bool}
    (hpk : ∀ x y, pk x = true → pk y = true → le x y = true)
    (a : α) (l : List α) :
    (ordIns le a l).filter pk =
      if pk a then a :: l.filter pk else l.filter pk := by
  induction l with
  | nil =>
    simp only [ordIns, List.filter]
    cases hpa : pk a <;> simp [hpa]
  | cons b l ih =>
    unfold ordIns
    by_cases hab : le a b
    · simp only [hab, if_true, List.filter]
      cases hpa : pk a <;> simp [hpa, List.filter]
    · simp only [hab, if_false, Bool.false_eq_true, List.filter]
      cases hpa : pk a
      · cases hpb : pk b <;> simp [hpa, hpb, List.filter, ih]
      · have hpb : pk b = false := by
          cases hpb : pk b
          · rfl
          · exact absurd (hpk a b hpa hpb) hab
        simp [hpa, hpb, List.filter, ih]

theorem filter_insSort {α : Type} {le : α → α → Bool} {pk : α → Bool}
    (hpk : ∀ x y, pk x = true → pk y = true → le x y = true)
    (l : List α) : (insSort le l).filter pk = l.filter pk := by
  induction l with
  | nil => rfl
  | cons a l ih =>
    unfold insSort
    rw [filter_ordIns hpk, ih]
    cases hpa : pk a <;> simp [hpa, List.filter]

/-! ### Claim theorems -/

set_option maxRecDepth 20000 in
/-- C1: for the single-block example input, `convert` returns exactly
the expected PHP line (no blank lines, no trailing newline) and an
empty pending sequence. -/
theorem c1_example_end_to_end :
    convert ("\x7bdate:\x272024-05-01\x27,start:\x2718:00\x27,duration:\x2790\x27,title:\x27Team A vs Team B\x27,sport:\x27Football\x27,competition:\x27League X\x27,url:\x27http://x\x27\x7d")
      = ("[\x27date\x27=>\x272024-05-01\x27,\x27start\x27=>\x2718:00\x27,\x27duration\x27=>90,\x27title\x27=>\x27Team A vs Team B\x27,\x27sport\x27=>\x27Football\x27,\x27competition\x27=>\x27League X\x27,\x27url\x27=>\x27http://x\x27],", []) := by
  rfl

/-- C2 counterexample: a block whose date value is the empty string and
which has no title key is accepted by the code and produces an output
line, where the claim says it is discarded. -/
theorem c2_counterexample :
    dictFind (parse_block "date:\x27\x27,sport:\x27x\x27") "date" = some ""
      ∧ dictHas (parse_block "date:\x27\x27,sport:\x27x\x27") "title" = false
      ∧ (eventsOf "\x7bdate:\x27\x27,sport:\x27x\x27\x7d").length = 1
      ∧ (convert "\x7bdate:\x27\x27,sport:\x27x\x27\x7d").1
          = "[\x27date\x27=>\x27\x27,\x27start\x27=>\x27\x27,\x27duration\x27=>\x27\x27,\x27title\x27=>\x27\x27,\x27sport\x27=>\x27x\x27,\x27competition\x27=>\x27\x27,\x27url\x27=>\x27\x27]," := by
  exact ⟨rfl, rfl, rfl, rfl⟩

/-- C2 (amended): a parsed FieldMap becomes an Event, and contributes
exactly one non-blank output line, precisely when it contains a date
key or a title key, regardless of whether the values are empty; the
accepted events are the normalized accepted maps in block-encounter
order. -/
theorem c2_acceptance (s : String) :
    eventsOf s
        = (((extractBlocks s).map parse_block).filter acceptB).map normComp
      ∧ ((renderLines (sortEvents (eventsOf s))).filter
          (fun x => !(x == ""))).length = (eventsOf s).length
      ∧ (convert s).1
          = String.intercalate "\n" (renderLines (sortEvents (eventsOf s))) := by
  refine ⟨eventsOf_eq s, ?_, rfl⟩
  have h1 := renderLoop_line_count (sortEvents (eventsOf s)) none
  unfold renderLines
  rw [h1]
  exact (perm_insSort evLeB (eventsOf s)).length_eq

/-- C3 counterexample: an event whose competition key holds the empty
string and whose comp key holds C renders the comp value, not the empty
competition value the claim requires. -/
theorem c3_counterexample :
    dictFind (parse_block "title:\x27t\x27,competition:\x27\x27,comp:\x27C\x27")
        "competition" = some ""
      ∧ strContains (convert "\x7btitle:\x27t\x27,competition:\x27\x27,comp:\x27C\x27\x7d").1
          "\x27competition\x27=>\x27\x27" = false
      ∧ strContains (convert "\x7btitle:\x27t\x27,competition:\x27\x27,comp:\x27C\x27\x7d").1
          "\x27competition\x27=>\x27C\x27" = true := by
  exact ⟨rfl, by decide, by decide⟩

/-- Spec-side competition resolution as amended: prefer the
competition value when non-empty, else the comp value when non-empty,
else the empty string. -/
def competitionSpec (ev : FieldMap) : String :=
  if dictGetD ev "competition" "" ≠ "" then dictGetD ev "competition" ""
  else if dictGetD ev "comp" "" ≠ "" then dictGetD ev "comp" ""
  else ""

/-- C3 (amended): the rendered competition value prefers the
competition field only when its value is non-empty, falling back to a
non-empty comp value, and to the empty string otherwise; the full line
follows the fixed template. -/
theorem c3_competition (ev : FieldMap) :
    to_php_line ev =
      "[\x27date\x27=>\x27" ++ php_escape (dictGetD ev "date" "")
        ++ "\x27,\x27start\x27=>\x27" ++ php_escape (dictGetD ev "start" "")
        ++ "\x27," ++ durPart (dictGetD ev "duration" "")
        ++ ",\x27title\x27=>\x27" ++ php_escape (dictGetD ev "title" "")
        ++ "\x27,\x27sport\x27=>\x27" ++ php_escape (dictGetD ev "sport" "")
        ++ "\x27,\x27competition\x27=>\x27" ++ php_escape (competitionSpec ev)
        ++ "\x27,\x27url\x27=>\x27" ++ php_escape (dictGetD ev "url" "")
        ++ "\x27]," := by
  unfold to_php_line competitionValue competitionSpec
  dsimp only
  by_cases h1 : dictGetD ev "competition" "" ≠ ""
  · rw [if_pos h1, if_pos h1]
  · rw [if_neg h1, if_neg h1]
    by_cases h2 : dictGetD ev "comp" "" ≠ ""
    · rw [if_pos h2]
    · rw [if_neg h2]
      push_neg at h2
      rw [h2]

/-- C4 counterexample: the duration string inf is convertible to a
floating-point number, yet the code renders it as a quoted string
because the integer conversion of an infinity raises. -/
theorem c4_counterexample :
    pyFloatParse "inf" = some (PyFloat.infinite false)
      ∧ (convert "\x7btitle:\x27t\x27,duration:\x27inf\x27\x7d").1
        = "[\x27date\x27=>\x27\x27,\x27start\x27=>\x27\x27,\x27duration\x27=>\x27inf\x27,\x27title\x27=>\x27t\x27,\x27sport\x27=>\x27\x27,\x27competition\x27=>\x27\x27,\x27url\x27=>\x27\x27]," := by
  exact ⟨rfl, rfl⟩

/-- C4 (amended): when the raw duration string converts to a finite
floating-point value the duration fragment is the unquoted truncation
toward zero of the nearest double; when the conversion fails or yields
an infinity or NaN the fragment is the escaped quoted raw string;
duration 45 renders as unquoted 45, tbd as quoted tbd, and the
decimal-to-double rounding is visible on high-precision decimals. -/
theorem c4_duration (s : String) :
    (∀ (neg : Bool) (m : Nat) (sc : Int),
        pyFloatParse s = some (PyFloat.finite neg m sc) →
          durPart s = "\x27duration\x27=>" ++ toString (pyTrunc neg m sc))
      ∧ (pyIntOfString s = none →
          durPart s = "\x27duration\x27=>\x27" ++ php_escape s ++ "\x27")
      ∧ durPart "45" = "\x27duration\x27=>45"
      ∧ durPart "tbd" = "\x27duration\x27=>\x27tbd\x27"
      ∧ durPart "0.99999999999999999" = "\x27duration\x27=>1"
      ∧ durPart "10000000000000000001"
          = "\x27duration\x27=>10000000000000000000" := by
  refine ⟨?_, ?_, rfl, rfl, rfl, rfl⟩
  · intro neg m sc h
    have h2 : pyIntOfString s = some (pyTrunc neg m sc) := by
      unfold pyIntOfString
      rw [h]
    unfold durPart
    rw [h2]
  · intro h
    unfold durPart
    rw [h]

/-- C4 witness: the amended theorem applied at concrete durations. -/
theorem c4_duration_witness :
    durPart "4.9" = "\x27duration\x27=>4"
      ∧ durPart "x2" = "\x27duration\x27=>\x27x2\x27" := by
  constructor
  · exact ((c4_duration "4.9").1 false 49 1 rfl).trans rfl
  · exact ((c4_duration "x2").2.1 rfl).trans rfl

/-- C5: the emitted order is the stable ascending sort of the accepted
events under lexicographic comparison of the (date, start) string
pairs: the sorted list is a permutation of the accepted list, pairwise
ordered by the pair comparison, each key class keeps its block
encounter order, and an event dated 2024-01-01 precedes one dated
2024-01-02 even when it appears later in the input. -/
theorem c5_sorting (evs : List FieldMap) :
    List.Perm (sortEvents evs) evs
      ∧ (sortEvents evs).Pairwise (fun a b => evLeB a b = true)
      ∧ (∀ k : String × String,
          (sortEvents evs).filter (fun e => decide (keyOf e = k))
            = evs.filter (fun e => decide (keyOf e = k)))
      ∧ (convert "\x7bdate:\x272024-01-02\x27,title:\x27b\x27\x7d \x7bdate:\x272024-01-01\x27,title:\x27a\x27\x7d").1
        = "[\x27date\x27=>\x272024-01-01\x27,\x27start\x27=>\x27\x27,\x27duration\x27=>\x27\x27,\x27title\x27=>\x27a\x27,\x27sport\x27=>\x27\x27,\x27competition\x27=>\x27\x27,\x27url\x27=>\x27\x27],\n\n[\x27date\x27=>\x272024-01-02\x27,\x27start\x27=>\x27\x27,\x27duration\x27=>\x27\x27,\x27title\x27=>\x27b\x27,\x27sport\x27=>\x27\x27,\x27competition\x27=>\x27\x27,\x27url\x27=>\x27\x27]," := by
  refine ⟨perm_insSort evLeB evs,
    pairwise_insSort evLeB_total (fun a b c hab hbc => evLeB_trans hab hbc) evs,
    ?_, rfl⟩
  intro k
  apply filter_insSort
  intro x y hx hy
  have hxk : keyOf x = k := of_decide_eq_true hx
  have hyk : keyOf y = k := of_decide_eq_true hy
  exact evLeB_of_keyEq (hxk.trans hyk.symm)

/-- C6: the rendered lines start with the first event line with no
preceding blank, each later event is preceded by exactly one blank line
precisely when its date differs from the previously emitted date, and
the output text joins the lines with single newlines with nothing
appended. -/
theorem c6_blank_lines :
    (∀ (e : FieldMap) (es : List FieldMap),
        renderLines (e :: es)
          = to_php_line e :: sepsFromD (dictGetD e "date" "") es)
      ∧ renderLines ([] : List FieldMap) = []
      ∧ ∀ s, (convert s).1
          = String.intercalate "\n" (renderLines (sortEvents (eventsOf s))) := by
  exact ⟨renderLines_cons, rfl, fun s => rfl⟩

/-- C7 counterexample: when quoting hides surrounding whitespace in the
url value, the recorded pending url is the stripped text, not the raw
field value the claim requires. -/
theorem c7_counterexample :
    dictFind (parse_block "title:\x27t\x27,url:\x27 ANAMONH x \x27") "url"
        = some " ANAMONH x "
      ∧ (convert "\x7btitle:\x27t\x27,url:\x27 ANAMONH x \x27\x7d").2
        = [⟨"", "", "t", "ANAMONH x"⟩]
      ∧ (" ANAMONH x " : String) ≠ "ANAMONH x" := by
  exact ⟨rfl, rfl, by decide⟩

/-- C7 (amended): an accepted event contributes a pending entry exactly
when its whitespace-stripped url, uppercased, contains ANAMONH; the
entry holds the date, start and title values and the stripped
(unescaped) url, in block encounter order; a url of http://x/ok yields
no entry and a url carrying the marker does. -/
theorem c7_pending (s : String) :
    pendingOf s
        = (((extractBlocks s).map parse_block).filter acceptB).filterMap pendFn
      ∧ (convert "\x7btitle:\x27t\x27,url:\x27http://x/ok\x27\x7d").2 = []
      ∧ (convert "\x7btitle:\x27t\x27,url:\x27(ANAMONH LINK)\x27\x7d").2
        = [⟨"", "", "t", "(ANAMONH LINK)"⟩] := by
  exact ⟨pendingOf_eq s, rfl, rfl⟩

/-- C8: `convert` is a total function; when the input has no matchable
brace block (the empty string included) it returns the empty text and
no pending entries, and blocks whose fields are all discarded likewise
produce the empty result without error. -/
theorem c8_total (s : String) :
    (extractBlocks s = [] → convert s = ("", []))
      ∧ convert "" = ("", [])
      ∧ convert "\x7b\x7d \x7b???\x7d" = ("", []) := by
  refine ⟨?_, rfl, rfl⟩
  intro h
  unfold convert eventsAndPending
  rw [h]
  rfl

/-- C8 witness: a concrete input with an unclosed brace has no blocks
and converts to the empty result. -/
theorem c8_total_witness :
    convert "just text \x7b unclosed" = ("", []) :=
  (c8_total "just text \x7b unclosed").1 rfl

/-- C9: every pending entry originates from an accepted event, so the
pending sequence is never longer than the event sequence; a block whose
url carries the marker but which lacks both date and title keys yields
neither an event nor a pending entry. -/
theorem c9_pending_from_events (s : String) :
    (pendingOf s).length ≤ (eventsOf s).length
      ∧ convert "\x7burl:\x27(ANAMONH LINK)\x27\x7d" = ("", []) := by
  constructor
  · rw [pendingOf_eq, eventsOf_eq, List.length_map]
    exact List.length_filterMap_le _ _
  · rfl

/-- C10: every value the parser stores comes from a raw value text the
pair scan actually matched, by stripping surrounding whitespace first
and then removing one layer of outer quotes exactly when the trimmed
text has length at least two and begins and ends with the same quote
character (mismatched or lone quotes are kept verbatim after
trimming); `strip_quotes` itself equals that trim-then-conditional
unquote composition. -/
theorem c10_stored_values (b k v : String)
    (h : dictFind (parse_block b) k = some v) :
    (∃ kv ∈ pairsScan b.toList, pyStripS kv.1 = k
        ∧ v = strip_quotes (pyStripS kv.2)
        ∧ v = String.mk (stripQuotesSpecL (pyStrip kv.2.toList)))
      ∧ ∀ s : String,
          strip_quotes s = String.mk (stripQuotesSpecL (pyStrip s.toList)) := by
  constructor
  · unfold parse_block at h
    rcases dictFind_fold_val (pairsScan b.toList) [] k v h
      with h2 | ⟨kv, hmem, hk, hv⟩
    · exact absurd h2 (by simp [dictFind])
    · have hb : strip_quotes (pyStripS kv.2)
          = String.mk (stripQuotesSpecL (pyStrip kv.2.toList)) := by
        rw [strip_quotes_eq_spec]
        have he : (pyStripS kv.2).toList = pyStrip kv.2.toList := rfl
        rw [he, pyStrip_idem]
      exact ⟨kv, hmem, hk, hv, hv.trans hb⟩
  · exact strip_quotes_eq_spec

/-- C10 witness: the theorem applied to a block whose first pair is
matched only after the regex gives back one whitespace character, so
the stored date value is the trimmed empty string obtained from the
raw whitespace value text. -/
theorem c10_stored_values_witness :
    dictFind (parse_block "date: ,b:\x27t\x27") "date" = some ""
      ∧ ((∃ kv ∈ pairsScan ("date: ,b:\x27t\x27" : String).toList,
            pyStripS kv.1 = "date"
              ∧ "" = strip_quotes (pyStripS kv.2)
              ∧ "" = String.mk (stripQuotesSpecL (pyStrip kv.2.toList)))
          ∧ ∀ s : String,
              strip_quotes s = String.mk (stripQuotesSpecL (pyStrip s.toList))) :=
  ⟨rfl, c10_stored_values "date: ,b:\x27t\x27" "date" "" rfl⟩

end Sportaki
